import Mathlib

/-!
Verification of the name-matching engine of the DineoutVancouverHalal
repository. The definitions below are a shallow embedding of the Python
functions in `scripts/load_vancouver_foodies.py`,
`scripts/load_google_maps_list.py` and
`scripts/update_google_maps_from_html.py`. Python floats are modelled by
exact rationals, Python dicts by association lists, and fallible code by
`Except`. The character-similarity measure of the scripts is
`difflib.SequenceMatcher(None, a, b).ratio()`; it is modelled exactly for
the junk-free case (the autojunk heuristic of difflib only activates for
strings of 200 characters or more, far beyond any normalized restaurant
name). Python `str.lower` is modelled on the ASCII range, and regex
whitespace on the six ASCII whitespace characters.
-/

namespace Dineout

/-- Characters kept by the regex `[^a-z0-9\s]` substitution of
`normalize_name`: lowercase ASCII letters and digits. -/
def isLowerAlnum (c : Char) : Bool :=
  ('a' ≤ c && c ≤ 'z') || ('0' ≤ c && c ≤ '9')

/-- ASCII whitespace, the model of regex `\s` and of the default
`str.split` / `str.strip` separators. -/
def isPyWs (c : Char) : Bool :=
  c == ' ' || c == '\t' || c == '\n' || c == '\r' || c == '\x0b' || c == '\x0c'

/-- Model of Python `s.strip().lower()` (ASCII case mapping):
lowercase, then drop leading and trailing whitespace. -/
def stripLower (s : String) : String :=
  ⟨(((s.data.map Char.toLower).dropWhile (fun c => isPyWs c)).reverse.dropWhile
      (fun c => isPyWs c)).reverse⟩

/-- Model of Python `str.split()` with no argument: split on runs of
whitespace, producing only nonempty words. -/
def splitWsGo : List Char → List Char → List String
  | [], cur => if cur = [] then [] else [⟨cur.reverse⟩]
  | c :: cs, cur =>
    if isPyWs c then
      if cur = [] then splitWsGo cs [] else (⟨cur.reverse⟩ : String) :: splitWsGo cs []
    else splitWsGo cs (c :: cur)

/-- Model of `" ".join(tokens)`. -/
def joinSpace : List String → String
  | [] => ""
  | [t] => t
  | t :: ts => t ++ " " ++ joinSpace ts

/-- The `STOPWORDS` set of `load_vancouver_foodies.py`. The fifth entry is
the mojibake spelling that appears verbatim in that file
(U+00C3 U+00A9 in place of U+00E9). -/
def STOPWORDS : List String :=
  ["restaurant", "restaurants", "bar", "cafe", "caf\xc3\xa9", "bistro",
   "kitchen", "grill", "grille", "pub", "the", "and", "&", "lounge",
   "house", "eatery"]

/-- The `STOPWORDS` set of `load_google_maps_list.py` and
`update_google_maps_from_html.py`, which spells the accented entry
`"caf\xe9"`. Both accented entries and `"&"` are unmatchable after the
alphanumeric filter, so the two sets filter tokens identically. -/
def STOPWORDS_GM : List String :=
  ["restaurant", "restaurants", "bar", "cafe", "caf\xe9", "bistro",
   "kitchen", "grill", "grille", "pub", "the", "and", "&", "lounge",
   "house", "eatery"]

/-- Shared body of the three `normalize_name` copies, parameterized by the
stop-word set: lowercase, expand `&` to " and ", replace every character
outside `[a-z0-9\s]` with a space, split on whitespace, drop stop-words. -/
def tokensWith (stop : List String) (s : String) : List String :=
  let lowered := s.data.map Char.toLower
  let expanded := (lowered.map (fun c => if c == '&' then (" and ").data else [c])).flatten
  let cleaned := expanded.map (fun c => if isLowerAlnum c || isPyWs c then c else ' ')
  (splitWsGo cleaned []).filter (fun t => ¬ stop.contains t)

/-- The `normalize_name` of `load_vancouver_foodies.py`: the surviving
tokens rejoined with single spaces. -/
def normalize_name (s : String) : String :=
  joinSpace (tokensWith STOPWORDS s)

/-- The `tokenize_name` of `load_vancouver_foodies.py`:
`normalize_name(text).split()`. -/
def tokenize_name (s : String) : List String :=
  splitWsGo (normalize_name s).data []

/-- The `normalize_name` of `load_google_maps_list.py` (identical except
for the spelling of the dead accented stop-word). -/
def normalize_name_gm (s : String) : String :=
  joinSpace (tokensWith STOPWORDS_GM s)

/-- The `tokenize_name` of `load_google_maps_list.py`. -/
def tokenize_name_gm (s : String) : List String :=
  splitWsGo (normalize_name_gm s).data []

/-- The `clean_text` of `update_google_maps_from_html.py`: remove the
control characters `[\x00-\x1f\x7f]`, then strip surrounding whitespace. -/
def clean_text (s : String) : String :=
  ⟨(((s.data.filter (fun c => ¬ (c.toNat ≤ 0x1f || c.toNat == 0x7f))).dropWhile
      (fun c => isPyWs c)).reverse.dropWhile (fun c => isPyWs c)).reverse⟩

/-- The `normalize_name` of `update_google_maps_from_html.py`, which first
applies `clean_text`. -/
def normalize_name_html (s : String) : String :=
  joinSpace (tokensWith STOPWORDS_GM (clean_text s))

/-! ### Character similarity: difflib.SequenceMatcher(None, a, b).ratio() -/

/-- Length of the longest common prefix of two character lists. -/
def runLen : List Char → List Char → Nat
  | c :: cs, d :: ds => if c = d then runLen cs ds + 1 else 0
  | _, _ => 0

/-- Model of difflib `find_longest_match` on junk-free input: the longest
common substring, returned as (start in `a`, start in `b`, length), taking
the lexicographically least `(i, j)` among the maximizers. This is exactly
the block difflib's dynamic program selects: it registers a block of
maximal length `k` at its final row `i + k - 1`, scanning rows in
increasing `i` and, within a row, increasing `j`, and only ever replaces
the incumbent on a strictly larger length. -/
def flm (a b : List Char) : Nat × Nat × Nat :=
  (List.range a.length).foldl
    (fun best i =>
      (List.range b.length).foldl
        (fun best j =>
          let k := runLen (a.drop i) (b.drop j)
          if best.2.2 < k then (i, j, k) else best)
        best)
    (0, 0, 0)

/-- Total size of the matching blocks of difflib `get_matching_blocks`:
take the longest match, then recurse on the pieces before it and after it.
The fuel argument strictly exceeds the combined length on every reachable
call, because each recursive call removes the nonempty matched block from
both sides; it only exists to make the recursion structural. -/
def matchTotalF : Nat → List Char → List Char → Nat
  | 0, _, _ => 0
  | fuel + 1, a, b =>
    let t := flm a b
    if t.2.2 = 0 then 0
    else
      t.2.2 + matchTotalF fuel (a.take t.1) (b.take t.2.1) +
        matchTotalF fuel (a.drop (t.1 + t.2.2)) (b.drop (t.2.1 + t.2.2))

/-- Total matched characters between two character lists. -/
def matchTotal (a b : List Char) : Nat :=
  matchTotalF (a.length + b.length) a b

/-- The `similarity` of the scripts:
`SequenceMatcher(None, a, b).ratio()`, i.e. `2·M / T` where `M` is the
total size of the matching blocks and `T` the combined length; difflib
returns `1.0` when `T = 0`. The fraction is built with `Rat.divInt` so
that it evaluates by kernel reduction. -/
def similarity (a b : String) : ℚ :=
  if a.data.length + b.data.length = 0 then 1
  else Rat.divInt (2 * Int.ofNat (matchTotal a.data b.data))
    (Int.ofNat (a.data.length + b.data.length))

/-! ### Token heuristics -/

/-- The `prefix_match_score` of the scripts: 0 when either token list is
empty; 0.93 when the first three tokens agree and at least two are
present; 0.9 when both sides have at least two tokens and the first two
agree; otherwise 0. -/
def prefix_match_score (aT bT : List String) : ℚ :=
  if aT = [] ∨ bT = [] then 0
  else if aT.take 3 = bT.take 3 ∧ 2 ≤ (aT.take 3).length then mkRat 93 100
  else if 2 ≤ aT.length ∧ 2 ≤ bT.length ∧ aT.take 2 = bT.take 2 then mkRat 9 10
  else 0

/-- The `token_overlap_score` of the scripts: 0 unless both sides have at
least two tokens; 0.9 when the distinct-token overlap divided by the
smaller token count is at least 0.75; otherwise 0. -/
def token_overlap_score (aT bT : List String) : ℚ :=
  if aT.length < 2 ∨ bT.length < 2 then 0
  else if mkRat 3 4 ≤ mkRat (Int.ofNat (aT.toFinset ∩ bT.toFinset).card) (min aT.length bT.length)
    then mkRat 9 10
  else 0

/-- Model of Python `max` on two rationals, written with an explicit
conditional so that it evaluates by kernel reduction. -/
def qmax (a b : ℚ) : ℚ := if a ≤ b then b else a

/-- The fuzzy score one loop iteration of `match_listing` computes for a
target/candidate pair of raw names:
`max(similarity(norm_a, norm_b), prefix_match_score, token_overlap_score)`. -/
def pairScore (a b : String) : ℚ :=
  qmax (similarity (normalize_name a) (normalize_name b))
    (qmax (prefix_match_score (tokenize_name a) (tokenize_name b))
      (token_overlap_score (tokenize_name a) (tokenize_name b)))

/-- The same pairwise fuzzy score as computed in `load_google_maps_list.py`
with its own normalizer. -/
def pairScoreGm (a b : String) : ℚ :=
  qmax (similarity (normalize_name_gm a) (normalize_name_gm b))
    (qmax (prefix_match_score (tokenize_name_gm a) (tokenize_name_gm b))
      (token_overlap_score (tokenize_name_gm a) (tokenize_name_gm b)))

/-! ### Resolver of load_vancouver_foodies.py -/

/-- A Vancouver Foodies listing card as consumed by `match_listing`; only
the name takes part in matching, the url stands for the rest of the
payload. -/
structure Listing where
  name : String
  url : String := ""
deriving DecidableEq, Repr

/-- The fuzzy-ranking loop of `match_listing` (its final `for` loop):
running best starts at `(None, 0.0)` and is replaced exactly when a
candidate scores strictly higher. -/
def fuzzyBest (target : String) (listings : List Listing) : Option Listing × ℚ :=
  listings.foldl
    (fun best l => if best.2 < pairScore target l.name then (some l, pairScore target l.name) else best)
    (none, 0)

/-- The `match_listing` of `load_vancouver_foodies.py`. Overrides are an
association list modelling the Python dict (`List.lookup` is the dict
lookup). Stage 1: override shortcut; stage 2: exact normalized equality
guarded by a nonempty target norm; stage 3: fuzzy ranking. -/
def match_listing (dineout_name : String) (listings : List Listing)
    (overrides : List (String × String)) : Option Listing × ℚ × String :=
  match (overrides.lookup (stripLower dineout_name)).bind
      (fun tgt => listings.find? (fun l => stripLower l.name == tgt)) with
  | some l => (some l, 1, "override")
  | none =>
    let dnorm := normalize_name dineout_name
    match (if dnorm = "" then none
           else listings.find? (fun l => normalize_name l.name == dnorm)) with
    | some l => (some l, mkRat 95 100, "exact")
    | none =>
      let fb := fuzzyBest dineout_name listings
      (fb.1, fb.2, "fuzzy")

/-! ### Resolver of load_google_maps_list.py -/

/-- A catalog restaurant row as fetched by `load_google_maps_list.py`. -/
structure Restaurant where
  id : Nat
  name : String
deriving DecidableEq, Repr

/-- The candidate loop of `match_name`: an exact normalized match returns
`(cand, 0.95)` immediately, otherwise the running best is updated on a
strictly higher fuzzy score. -/
def matchNameLoop (target : String) : List Restaurant → Option Restaurant × ℚ →
    Option Restaurant × ℚ
  | [], best => best
  | c :: cs, best =>
    if normalize_name_gm c.name = normalize_name_gm target then (some c, mkRat 95 100)
    else
      matchNameLoop target cs
        (if best.2 < pairScoreGm target c.name then (some c, pairScoreGm target c.name) else best)

/-- The `match_name` of `load_google_maps_list.py`: an empty normalized
target short-circuits to `(None, 0.0)`. -/
def match_name (target : String) (candidates : List Restaurant) : Option Restaurant × ℚ :=
  if normalize_name_gm target = "" then (none, 0)
  else matchNameLoop target candidates (none, 0)

/-! ### Override map construction of load_vancouver_foodies.py -/

/-- A row of the `match_overrides` table as returned by the REST fetch in
`fetch_overrides`; `none` models a missing key or a null value, either of
which makes the Python `row[...] .strip()` access raise. -/
structure OverrideRow where
  dineout_name : Option String
  vancouverfoodies_name : Option String
deriving DecidableEq, Repr

/-- Python dict assignment `m[k] = v` on an association list: an existing
key keeps its position and gets the new value, a new key is appended. -/
def dictInsert (m : List (String × String)) (k v : String) : List (String × String) :=
  if m.any (fun p => p.1 == k) then m.map (fun p => if p.1 == k then (k, v) else p)
  else m ++ [(k, v)]

/-- The row loop of `fetch_overrides`: each row contributes
`overrides[row["dineout_name"].strip().lower()] =
row["vancouverfoodies_name"].strip().lower()`; a missing key or null value
raises, aborting the whole construction. -/
def buildOverridesGo (acc : List (String × String)) :
    List OverrideRow → Except String (List (String × String))
  | [] => Except.ok acc
  | ⟨some dn, some vn⟩ :: rest =>
    buildOverridesGo (dictInsert acc (stripLower dn) (stripLower vn)) rest
  | ⟨none, _⟩ :: _ => Except.error "KeyError"
  | ⟨some _, none⟩ :: _ => Except.error "KeyError"

/-- The map-building part of `fetch_overrides` of
`load_vancouver_foodies.py` (the HTTP fetch that produces the row list is
outside the model). -/
def fetch_overrides (rows : List OverrideRow) : Except String (List (String × String)) :=
  buildOverridesGo [] rows

/-! ### Keyed-catalog sync of update_google_maps_from_html.py -/

/-- A parsed Google Maps list entry as built by `parse_list_entries`. -/
structure Entry where
  name : String
  normalized : String
  rating : Option ℚ
  reviews_count : Option Nat
  price : Option String
  category_name : Option String
  image_url : Option String
  permanently_closed : Bool
deriving DecidableEq, Repr

/-- An existing `halal_restaurants` row as fetched by `fetch_existing`. -/
structure CatalogRow where
  id : String
  name : String
  slug : String
deriving DecidableEq, Repr

/-- The update payload assembled for a uniquely matched entry. -/
structure Payload where
  category_name : Option String
  price : Option String
  rating : Option ℚ
  reviews_count : Option Nat
  image_url : Option String
  permanently_closed : Bool
deriving DecidableEq, Repr

/-- The six payload fields taken from an entry. -/
def payloadOf (e : Entry) : Payload :=
  ⟨e.category_name, e.price, e.rating, e.reviews_count, e.image_url, e.permanently_closed⟩

/-- A row queued for insertion (the constant `source` field and the
wall-clock `scraped_at` timestamp are outside the pure model). -/
structure NewRow where
  name : String
  slug : String
  payload : Payload
deriving DecidableEq, Repr

/-- The `slugify` of `update_google_maps_from_html.py`: strip and
lowercase, turn every run of non-alphanumeric characters into a single
dash, strip dashes, default to "restaurant". -/
def slugify (value : String) : String :=
  let s := stripLower value
  let words := splitWsGo (s.data.map (fun c => if isLowerAlnum c then c else ' ')) []
  let joined := joinDash words
  if joined = "" then "restaurant" else joined
where
  joinDash : List String → String
    | [] => ""
    | [t] => t
    | t :: ts => t ++ "-" ++ joinDash ts

/-- The counter loop of `unique_slug`; the fuel bound `used.length + 1`
always suffices because the candidates tried are pairwise distinct while
at most `used.length` strings are taken. -/
def uniqueSlugGo (base : String) (used : List String) : Nat → Nat → String
  | 0, c => base ++ "-" ++ toString c
  | fuel + 1, c =>
    let cand := base ++ "-" ++ toString c
    if used.contains cand then uniqueSlugGo base used fuel (c + 1) else cand

/-- The `unique_slug` of `update_google_maps_from_html.py`. -/
def unique_slug (base : String) (used : List String) : String :=
  if used.contains base then uniqueSlugGo base used (used.length + 1) 2 else base

/-- The rows of the fetched catalog whose normalized name equals the given
key, in fetch order: this is exactly `existing_by_key.get(key, [])` for
the dict of lists built in `main`. -/
def existingByKey (existing : List CatalogRow) (key : String) : List CatalogRow :=
  existing.filter (fun r => normalize_name_html r.name == key)

/-- The accumulated outcome of the classification loop of `main`:
patch payloads for uniquely keyed entries, rows queued for insertion,
ambiguous conflicts, and the running set of slugs in use. -/
structure SyncState where
  matched_updates : List (String × Payload)
  new_rows : List NewRow
  ambiguous : List (String × List String)
  slugs_in_use : List String
deriving DecidableEq, Repr

/-- One iteration of the entry loop of `main`: no keyed row means a fresh
insert with a fresh slug, more than one keyed row is recorded as
ambiguous, exactly one keyed row is patched. -/
def syncStep (existing : List CatalogRow) (s : SyncState) (e : Entry) : SyncState :=
  let ms := existingByKey existing e.normalized
  if ms.length = 0 then
    let slug := unique_slug (slugify e.name) s.slugs_in_use
    { s with new_rows := s.new_rows ++ [⟨e.name, slug, payloadOf e⟩],
             slugs_in_use := s.slugs_in_use ++ [slug] }
  else if 1 < ms.length then
    { s with ambiguous := s.ambiguous ++ [(e.name, ms.map (fun r => r.name))] }
  else
    { s with matched_updates :=
        s.matched_updates ++ [((ms.headD ⟨"", "", ""⟩).id, payloadOf e)] }

/-- The slugs already taken by the fetched catalog (`if row.get("slug")`
keeps only truthy, i.e. nonempty, slugs). -/
def initialSlugs (existing : List CatalogRow) : List String :=
  existing.filterMap (fun r => if r.slug = "" then none else some r.slug)

/-- The whole classification loop of `main` over the consolidated
entries. -/
def classify (existing : List CatalogRow) (entries : List Entry) : SyncState :=
  entries.foldl (syncStep existing) ⟨[], [], [], initialSlugs existing⟩

/-! ### Helper lemmas -/

theorem qmax_eq_max (a b : ℚ) : qmax a b = max a b := by
  unfold qmax
  split
  · exact (max_eq_right (by assumption)).symm
  · exact (max_eq_left (le_of_not_le (by assumption))).symm

theorem foldl_invariant {α β : Type} (P : β → Prop) (f : β → α → β) :
    ∀ (l : List α) (b : β), P b → (∀ b a, a ∈ l → P b → P (f b a)) → P (l.foldl f b) := by
  intro l
  induction l with
  | nil => intro b hb _; exact hb
  | cons x xs ih =>
    intro b hb hstep
    exact ih (f b x) (hstep b x (List.mem_cons_self x xs) hb)
      (fun b' a ha hb' => hstep b' a (List.mem_cons_of_mem x ha) hb')

theorem runLen_le_left : ∀ a b : List Char, runLen a b ≤ a.length := by
  intro a
  induction a with
  | nil => intro b; cases b <;> simp [runLen]
  | cons c cs ih =>
    intro b
    cases b with
    | nil => simp [runLen]
    | cons d ds =>
      by_cases h : c = d
      · simpa [runLen, h] using ih ds
      · simp [runLen, h]

theorem runLen_le_right : ∀ a b : List Char, runLen a b ≤ b.length := by
  intro a
  induction a with
  | nil => intro b; cases b <;> simp [runLen]
  | cons c cs ih =>
    intro b
    cases b with
    | nil => simp [runLen]
    | cons d ds =>
      by_cases h : c = d
      · have := ih ds
        simp only [runLen, if_pos h, List.length_cons]
        omega
      · simp [runLen, h]

/-- The invariant carried by the scan of `flm`: the recorded block fits
inside both strings. -/
def flmInv (a b : List Char) (t : Nat × Nat × Nat) : Prop :=
  t.1 + t.2.2 ≤ a.length ∧ t.2.1 + t.2.2 ≤ b.length

theorem flm_inner_inv (a b : List Char) (i : Nat) (hi : i < a.length) :
    ∀ (js : List Nat) (t : Nat × Nat × Nat), (∀ j ∈ js, j < b.length) → flmInv a b t →
      flmInv a b (js.foldl
        (fun best j =>
          let k := runLen (a.drop i) (b.drop j)
          if best.2.2 < k then (i, j, k) else best) t) := by
  intro js
  induction js with
  | nil => intro t _ ht; exact ht
  | cons j js ih =>
    intro t hjs ht
    rw [List.foldl_cons]
    refine ih _ (fun x hx => hjs x (List.mem_cons_of_mem _ hx)) ?_
    have hj : j < b.length := hjs j (List.mem_cons_self _ _)
    dsimp only
    split
    · have h1 := runLen_le_left (a.drop i) (b.drop j)
      have h2 := runLen_le_right (a.drop i) (b.drop j)
      simp only [List.length_drop] at h1 h2
      exact ⟨by dsimp only; omega, by dsimp only; omega⟩
    · exact ht

theorem flm_outer_inv (a b : List Char) :
    ∀ (is : List Nat) (t : Nat × Nat × Nat), (∀ i ∈ is, i < a.length) → flmInv a b t →
      flmInv a b (is.foldl
        (fun best i =>
          (List.range b.length).foldl
            (fun best j =>
              let k := runLen (a.drop i) (b.drop j)
              if best.2.2 < k then (i, j, k) else best)
            best) t) := by
  intro is
  induction is with
  | nil => intro t _ ht; exact ht
  | cons i is ih =>
    intro t his ht
    rw [List.foldl_cons]
    refine ih _ (fun x hx => his x (List.mem_cons_of_mem _ hx)) ?_
    exact flm_inner_inv a b i (his i (List.mem_cons_self _ _)) (List.range b.length) t
      (fun j hj => List.mem_range.mp hj) ht

theorem flm_bounds (a b : List Char) :
    (flm a b).1 + (flm a b).2.2 ≤ a.length ∧ (flm a b).2.1 + (flm a b).2.2 ≤ b.length := by
  have h := flm_outer_inv a b (List.range a.length) (0, 0, 0)
    (fun i hi => List.mem_range.mp hi) (by constructor <;> simp)
  exact h

theorem matchTotalF_le : ∀ (fuel : Nat) (a b : List Char),
    matchTotalF fuel a b ≤ min a.length b.length := by
  intro fuel
  induction fuel with
  | zero => intro a b; simp [matchTotalF]
  | succ f ih =>
    intro a b
    rw [matchTotalF]
    obtain ⟨h1, h2⟩ := flm_bounds a b
    split
    · omega
    · have t1 := ih (a.take (flm a b).1) (b.take (flm a b).2.1)
      have t2 := ih (a.drop ((flm a b).1 + (flm a b).2.2))
        (b.drop ((flm a b).2.1 + (flm a b).2.2))
      simp only [List.length_take, List.length_drop] at t1 t2
      omega

theorem matchTotal_le (a b : List Char) : matchTotal a b ≤ min a.length b.length :=
  matchTotalF_le (a.length + b.length) a b

theorem similarity_nonneg (a b : String) : 0 ≤ similarity a b := by
  unfold similarity
  split
  · norm_num
  · rw [Rat.divInt_eq_div]
    simp only [Int.ofNat_eq_natCast]
    push_cast
    positivity

theorem similarity_le_one (a b : String) : similarity a b ≤ 1 := by
  unfold similarity
  split
  · norm_num
  · rename_i h
    rw [Rat.divInt_eq_div]
    simp only [Int.ofNat_eq_natCast]
    push_cast
    rw [div_le_one (by exact_mod_cast Nat.pos_of_ne_zero h)]
    have := matchTotal_le a.data b.data
    have hmin : 2 * matchTotal a.data b.data ≤ a.data.length + b.data.length := by omega
    exact_mod_cast hmin

theorem prefix_match_score_bounds (aT bT : List String) :
    0 ≤ prefix_match_score aT bT ∧ prefix_match_score aT bT ≤ 1 := by
  unfold prefix_match_score
  split_ifs <;> constructor <;> decide

theorem token_overlap_score_bounds (aT bT : List String) :
    0 ≤ token_overlap_score aT bT ∧ token_overlap_score aT bT ≤ 1 := by
  unfold token_overlap_score
  split_ifs <;> constructor <;> decide

theorem pairScore_nonneg (a b : String) : 0 ≤ pairScore a b := by
  unfold pairScore
  rw [qmax_eq_max, qmax_eq_max]
  exact le_trans (similarity_nonneg (normalize_name a) (normalize_name b)) (le_max_left _ _)

theorem pairScore_le_one (a b : String) : pairScore a b ≤ 1 := by
  unfold pairScore
  rw [qmax_eq_max, qmax_eq_max]
  exact max_le (similarity_le_one _ _)
    (max_le (prefix_match_score_bounds _ _).2 (token_overlap_score_bounds _ _).2)

theorem fuzzyFold_bounds (t : String) :
    ∀ (ls : List Listing) (acc : Option Listing × ℚ), 0 ≤ acc.2 → acc.2 ≤ 1 →
      0 ≤ (ls.foldl (fun best l =>
            if best.2 < pairScore t l.name then (some l, pairScore t l.name) else best) acc).2 ∧
      (ls.foldl (fun best l =>
            if best.2 < pairScore t l.name then (some l, pairScore t l.name) else best) acc).2 ≤ 1 := by
  intro ls
  induction ls with
  | nil => intro acc h0 h1; exact ⟨h0, h1⟩
  | cons x xs ih =>
    intro acc h0 h1
    rw [List.foldl_cons]
    by_cases h : acc.2 < pairScore t x.name
    · rw [if_pos h]
      exact ih _ (pairScore_nonneg t x.name) (pairScore_le_one t x.name)
    · rw [if_neg h]
      exact ih acc h0 h1

theorem fuzzyBest_bounds (t : String) (ls : List Listing) :
    0 ≤ (fuzzyBest t ls).2 ∧ (fuzzyBest t ls).2 ≤ 1 :=
  fuzzyFold_bounds t ls (none, 0) (le_refl 0) (by norm_num)

theorem matchTotalF_nil_left (f : Nat) (b : List Char) : matchTotalF f [] b = 0 := by
  cases f with
  | zero => rfl
  | succ f =>
    rw [matchTotalF]
    have h : flm [] b = (0, 0, 0) := rfl
    rw [h]
    rfl

theorem string_data_ne_nil (b : String) (hb : b ≠ "") : b.data.length ≠ 0 := by
  intro h
  apply hb
  cases b with
  | mk l =>
    cases l with
    | nil => rfl
    | cons c cs => simp at h

theorem similarity_empty_left (b : String) (hb : b ≠ "") : similarity "" b = 0 := by
  unfold similarity
  have hd : ("" : String).data = [] := rfl
  have hlen := string_data_ne_nil b hb
  have hT : ("" : String).data.length + b.data.length ≠ 0 := by
    rw [hd]
    simpa using hlen
  rw [if_neg hT]
  have hm : matchTotal ("" : String).data b.data = 0 := by
    rw [hd]; exact matchTotalF_nil_left _ _
  rw [hm]
  simp [Int.ofNat_eq_natCast, Rat.zero_divInt]

theorem tokenize_of_empty_norm (a : String) (h : normalize_name a = "") :
    tokenize_name a = [] := by
  unfold tokenize_name
  rw [h]
  rfl

theorem fuzzyFold_skip (t : String) :
    ∀ (post : List Listing) (acc : Option Listing × ℚ),
      (∀ l ∈ post, pairScore t l.name ≤ acc.2) →
      post.foldl (fun best l =>
        if best.2 < pairScore t l.name then (some l, pairScore t l.name) else best) acc = acc := by
  intro post
  induction post with
  | nil => intro acc _; rfl
  | cons x xs ih =>
    intro acc hacc
    rw [List.foldl_cons]
    rw [if_neg (not_lt.mpr (hacc x (List.mem_cons_self _ _)))]
    exact ih acc (fun l hl => hacc l (List.mem_cons_of_mem _ hl))

theorem fuzzyFold_first_max (t : String) (l₁ : Listing) :
    ∀ (pre post : List Listing) (acc : Option Listing × ℚ),
      (∀ l ∈ pre, pairScore t l.name < pairScore t l₁.name) →
      (∀ l ∈ post, pairScore t l.name ≤ pairScore t l₁.name) →
      acc.2 < pairScore t l₁.name →
      (pre ++ l₁ :: post).foldl (fun best l =>
        if best.2 < pairScore t l.name then (some l, pairScore t l.name) else best) acc =
        (some l₁, pairScore t l₁.name) := by
  intro pre
  induction pre with
  | nil =>
    intro post acc _ hpost hacc
    rw [List.nil_append, List.foldl_cons, if_pos hacc]
    exact fuzzyFold_skip t post _ (fun l hl => hpost l hl)
  | cons p pre ih =>
    intro post acc hpre hpost hacc
    rw [List.cons_append, List.foldl_cons]
    have hp : pairScore t p.name < pairScore t l₁.name :=
      hpre p (List.mem_cons_self _ _)
    by_cases h : acc.2 < pairScore t p.name
    · rw [if_pos h]
      exact ih post _ (fun l hl => hpre l (List.mem_cons_of_mem _ hl)) hpost hp
    · rw [if_neg h]
      exact ih post acc (fun l hl => hpre l (List.mem_cons_of_mem _ hl)) hpost hacc

theorem find?_pre_middle {α : Type} (p : α → Bool) :
    ∀ (pre : List α) (x : α) (post : List α), (∀ y ∈ pre, p y = false) → p x = true →
      (pre ++ x :: post).find? p = some x := by
  intro pre
  induction pre with
  | nil => intro x post _ hx; rw [List.nil_append]; exact List.find?_cons_of_pos _ hx
  | cons y pre ih =>
    intro x post hpre hx
    rw [List.cons_append, List.find?_cons_of_neg]
    · exact ih x post (fun z hz => hpre z (List.mem_cons_of_mem _ hz)) hx
    · simp [hpre y (List.mem_cons_self _ _)]

theorem syncStep_amb_super (ex : List CatalogRow) (s : SyncState) (e : Entry)
    (x : String × List String) (hx : x ∈ s.ambiguous) : x ∈ (syncStep ex s e).ambiguous := by
  unfold syncStep
  dsimp only
  split_ifs
  · exact hx
  · exact List.mem_append_left _ hx
  · exact hx

theorem syncFold_amb_super (ex : List CatalogRow) :
    ∀ (l : List Entry) (s : SyncState) (x : String × List String),
      x ∈ s.ambiguous → x ∈ (l.foldl (syncStep ex) s).ambiguous := by
  intro l
  induction l with
  | nil => intro s x hx; exact hx
  | cons e l ih =>
    intro s x hx
    rw [List.foldl_cons]
    exact ih _ x (syncStep_amb_super ex s e x hx)

theorem syncFold_amb_mem (ex : List CatalogRow) :
    ∀ (l : List Entry) (s : SyncState) (e : Entry), e ∈ l →
      1 < (existingByKey ex e.normalized).length →
      (e.name, (existingByKey ex e.normalized).map (fun r => r.name)) ∈
        (l.foldl (syncStep ex) s).ambiguous := by
  intro l
  induction l with
  | nil => intro s e he; exact absurd he (List.not_mem_nil e)
  | cons y l ih =>
    intro s e he hc
    rw [List.foldl_cons]
    rcases List.mem_cons.mp he with rfl | he'
    · apply syncFold_amb_super
      unfold syncStep
      dsimp only
      rw [if_neg (by omega), if_pos hc]
      dsimp only
      exact List.mem_append_right _ (List.mem_singleton.mpr rfl)
    · exact ih _ e he' hc

theorem syncFold_upd_from (ex : List CatalogRow) :
    ∀ (l : List Entry) (s : SyncState) (u : String × Payload),
      u ∈ (l.foldl (syncStep ex) s).matched_updates →
      u ∈ s.matched_updates ∨ ∃ x ∈ l, ∃ m : CatalogRow,
        existingByKey ex x.normalized = [m] ∧ u = (m.id, payloadOf x) := by
  intro l
  induction l with
  | nil => intro s u hu; exact Or.inl hu
  | cons y l ih =>
    intro s u hu
    rw [List.foldl_cons] at hu
    rcases ih _ u hu with h | ⟨x, hx, m, hm, hu'⟩
    · unfold syncStep at h
      dsimp only at h
      by_cases h1 : (existingByKey ex y.normalized).length = 0
      · rw [if_pos h1] at h
        dsimp only at h
        exact Or.inl h
      · rw [if_neg h1] at h
        by_cases h2 : 1 < (existingByKey ex y.normalized).length
        · rw [if_pos h2] at h
          dsimp only at h
          exact Or.inl h
        · rw [if_neg h2] at h
          dsimp only at h
          rcases List.mem_append.mp h with h' | h'
          · exact Or.inl h'
          · have hlen : (existingByKey ex y.normalized).length = 1 := by omega
            obtain ⟨m, hm⟩ := List.length_eq_one.mp hlen
            refine Or.inr ⟨y, List.mem_cons_self _ _, m, hm, ?_⟩
            rw [List.mem_singleton.mp h', hm]
            rfl
    · exact Or.inr ⟨x, List.mem_cons_of_mem _ hx, m, hm, hu'⟩

theorem syncFold_new_from (ex : List CatalogRow) :
    ∀ (l : List Entry) (s : SyncState) (nr : NewRow),
      nr ∈ (l.foldl (syncStep ex) s).new_rows →
      nr ∈ s.new_rows ∨ ∃ x ∈ l, existingByKey ex x.normalized = [] ∧ nr.name = x.name := by
  intro l
  induction l with
  | nil => intro s nr hnr; exact Or.inl hnr
  | cons y l ih =>
    intro s nr hnr
    rw [List.foldl_cons] at hnr
    rcases ih _ nr hnr with h | ⟨x, hx, hm, hn⟩
    · unfold syncStep at h
      dsimp only at h
      by_cases h1 : (existingByKey ex y.normalized).length = 0
      · rw [if_pos h1] at h
        dsimp only at h
        rcases List.mem_append.mp h with h' | h'
        · exact Or.inl h'
        · refine Or.inr ⟨y, List.mem_cons_self _ _, List.length_eq_zero.mp h1, ?_⟩
          rw [List.mem_singleton.mp h']
      · rw [if_neg h1] at h
        by_cases h2 : 1 < (existingByKey ex y.normalized).length
        · rw [if_pos h2] at h
          dsimp only at h
          exact Or.inl h
        · rw [if_neg h2] at h
          dsimp only at h
          exact Or.inl h
    · exact Or.inr ⟨x, List.mem_cons_of_mem _ hx, hm, hn⟩

theorem buildOverridesGo_ok_iff :
    ∀ (rows : List OverrideRow) (acc : List (String × String)),
      (∃ m, buildOverridesGo acc rows = Except.ok m) ↔
        ∀ row ∈ rows, row.dineout_name.isSome ∧ row.vancouverfoodies_name.isSome := by
  intro rows
  induction rows with
  | nil =>
    intro acc
    constructor
    · intro _ row hrow
      exact absurd hrow (List.not_mem_nil row)
    · intro _
      exact ⟨acc, rfl⟩
  | cons r rest ih =>
    intro acc
    obtain ⟨dno, vno⟩ := r
    cases dno with
    | none =>
      constructor
      · rintro ⟨m, hm⟩
        simp [buildOverridesGo] at hm
      · intro h
        have := (h ⟨none, vno⟩ (List.mem_cons_self _ _)).1
        simp at this
    | some dn =>
      cases vno with
      | none =>
        constructor
        · rintro ⟨m, hm⟩
          simp [buildOverridesGo] at hm
        · intro h
          have := (h ⟨some dn, none⟩ (List.mem_cons_self _ _)).2
          simp at this
      | some vn =>
        rw [show buildOverridesGo acc (⟨some dn, some vn⟩ :: rest) =
          buildOverridesGo (dictInsert acc (stripLower dn) (stripLower vn)) rest from rfl]
        rw [ih (dictInsert acc (stripLower dn) (stripLower vn))]
        constructor
        · intro h row hrow
          rcases List.mem_cons.mp hrow with rfl | hrow'
          · exact ⟨rfl, rfl⟩
          · exact h row hrow'
        · intro h row hrow
          exact h row (List.mem_cons_of_mem _ hrow)

/-! ### Claim theorems -/

set_option maxRecDepth 1000000

set_option maxHeartbeats 2000000

/-- C1: in `match_listing`, when the lower/trimmed target is an override
key and some candidate's lower/trimmed name equals the override's target
value, the resolver returns the first such candidate with score exactly
1.0 and method "override"; no similarity heuristic takes part, so the
result is the same whatever any other candidate would score. -/
theorem override_short_circuits_scoring (dn tgt : String)
    (overrides : List (String × String)) (pre post : List Listing) (l₁ : Listing)
    (hov : overrides.lookup (stripLower dn) = some tgt)
    (hpre : ∀ l ∈ pre, stripLower l.name ≠ tgt)
    (hl : stripLower l₁.name = tgt) :
    match_listing dn (pre ++ l₁ :: post) overrides = (some l₁, 1, "override") := by
  unfold match_listing
  rw [hov, Option.some_bind]
  rw [find?_pre_middle _ pre l₁ post
    (fun y hy => beq_eq_false_iff_ne.mpr (hpre y hy)) (beq_iff_eq.mpr hl)]

/-- Witness for C1: an override pins "Foo" to the listing named "Bar". -/
theorem override_short_circuits_scoring_witness :
    match_listing ("Foo") [⟨"Bar", "u"⟩] [("foo", "bar")] =
      (some ⟨"Bar", "u"⟩, 1, "override") := by
  have h := override_short_circuits_scoring ("Foo") ("bar") [("foo", "bar")] [] []
    ⟨"Bar", "u"⟩ (by decide) (fun l hl => absurd hl (List.not_mem_nil l)) (by decide)
  simpa using h

/-- C2 counterexample: "the" normalizes to the empty string, yet its pair
score against "bar" (whose normalized form is also empty) is 1 rather
than 0, because difflib's ratio of two empty strings is 1.0, and
`match_listing` then returns that candidate with score 1 on the fuzzy
path. -/
theorem empty_norm_zero_score_cx :
    normalize_name ("the") = "" ∧ pairScore ("the") ("bar") = 1 ∧
      match_listing ("the") [⟨"bar", "u"⟩] [] = (some ⟨"bar", "u"⟩, 1, "fuzzy") :=
  ⟨by decide, by decide, by decide⟩

/-- C2 (amended): when the target's normalized form is empty the pair
score is 0 provided the candidate's normalized form is nonempty — when
both are empty the character-similarity ratio is 1; and `match_name` of
the Google-Maps loader short-circuits an empty-normalized target to
`(None, 0.0)` unconditionally, thanks to its explicit guard. -/
theorem empty_norm_scores (a b : String) (cands : List Restaurant) :
    (normalize_name a = "" → normalize_name b ≠ "" → pairScore a b = 0)
    ∧ (normalize_name_gm a = "" → match_name a cands = (none, 0)) := by
  constructor
  · intro h1 h2
    unfold pairScore
    rw [h1, tokenize_of_empty_norm a h1, similarity_empty_left _ h2]
    have hp : prefix_match_score [] (tokenize_name b) = 0 := by
      unfold prefix_match_score
      rw [if_pos (Or.inl rfl)]
    have ho : token_overlap_score [] (tokenize_name b) = 0 := by
      unfold token_overlap_score
      rw [if_pos (Or.inl (by decide))]
    rw [hp, ho]
    decide
  · intro h
    unfold match_name
    rw [if_pos h]

/-- Witness for C2 (amended) at concrete inputs. -/
theorem empty_norm_scores_witness :
    pairScore ("the") ("xy") = 0 ∧ match_name ("the") [] = (none, 0) :=
  ⟨(empty_norm_scores ("the") ("xy") []).1 (by decide) (by decide),
   (empty_norm_scores ("the") ("xy") []).2 (by decide)⟩

/-- C3 counterexample: two candidates both attain the maximum fuzzy score
(here 0), yet the resolver returns no candidate at all rather than the
first one in list order: the running best only replaces on a strictly
positive improvement over the initial 0.0. -/
theorem tie_break_zero_max_cx :
    pairScore ("alpha") ("zz") = 0 ∧
      match_listing ("alpha") [⟨"zz", "u1"⟩, ⟨"zz", "u2"⟩] [] = (none, 0, "fuzzy") :=
  ⟨by decide, by decide⟩

/-- C3 (amended): whenever the maximum fuzzy score over the candidate
list is positive, the ranking loop returns the first candidate in the
supplied order that attains it (so permuting candidates that score
strictly below the maximum cannot change the choice); with a zero
maximum the loop returns no candidate. -/
theorem first_max_candidate_wins (target : String) (pre post : List Listing) (l₁ : Listing)
    (hpre : ∀ l ∈ pre, pairScore target l.name < pairScore target l₁.name)
    (hpost : ∀ l ∈ post, pairScore target l.name ≤ pairScore target l₁.name)
    (hpos : 0 < pairScore target l₁.name) :
    fuzzyBest target (pre ++ l₁ :: post) = (some l₁, pairScore target l₁.name) := by
  unfold fuzzyBest
  exact fuzzyFold_first_max target l₁ pre post (none, 0) hpre hpost hpos

/-- Witness for C3 (amended): two equally scoring candidates, the first
wins. -/
theorem first_max_candidate_wins_witness :
    fuzzyBest ("alpha beta") [⟨"alpha beta", "u1"⟩, ⟨"alpha beta", "u2"⟩] =
      (some ⟨"alpha beta", "u1"⟩, 1) := by
  have h := first_max_candidate_wins ("alpha beta") [] [⟨"alpha beta", "u2"⟩]
    ⟨"alpha beta", "u1"⟩ (fun l hl => absurd hl (List.not_mem_nil l))
    (by intro l hl; rw [List.mem_singleton.mp hl])
    (by decide)
  have hs : pairScore ("alpha beta") ("alpha beta") = 1 := by decide
  rw [hs] at h
  simpa using h

/-- C4 counterexample: the literal fixture scores strictly below 0.90:
"house" is a stop-word, so the normalized names "kebab downtown" and
"kebab main st" share only their first token, the prefix and overlap
heuristics give 0, and the character similarity is 16/27. -/
theorem kebab_fixture_below_point_nine_cx :
    pairScore ("Kebab House Downtown") ("Kebab House Main St") < 9 / 10 := by
  have h : pairScore ("Kebab House Downtown") ("Kebab House Main St") = mkRat 16 27 := by
    decide
  rw [h, Rat.mkRat_eq_div]
  norm_num

/-- C4 (amended): the fixture's pair score is exactly 16/27 (about 0.59):
after stop-word removal the token lists are ["kebab", "downtown"] and
["kebab", "main", "st"], so neither token heuristic fires and the
character similarity 2·8/27 is the maximum. -/
theorem kebab_fixture_score_value :
    pairScore ("Kebab House Downtown") ("Kebab House Main St") = 16 / 27 ∧
      tokenize_name ("Kebab House Downtown") = ["kebab", "downtown"] ∧
      tokenize_name ("Kebab House Main St") = ["kebab", "main", "st"] := by
  refine ⟨?_, by decide, by decide⟩
  have h : pairScore ("Kebab House Downtown") ("Kebab House Main St") = mkRat 16 27 := by
    decide
  rw [h, Rat.mkRat_eq_div]
  norm_num

/-- C5 counterexample: the normalizer does not yield "joe s" on the
literal fixture. -/
theorem joes_cafe_normalize_cx :
    normalize_name ("Joe\x27s Caf\xe9 & Grill") ≠ "joe s" := by decide

/-- C5 (amended): the fixture normalizes to "joe s caf": punctuation is
stripped, `&` expands to the stop-word "and", "grill" is removed as a
stop-word, but the accented character of "café" is stripped by the
alphanumeric filter before stop-word removal, leaving the surviving token
"caf", which is not a stop-word. -/
theorem joes_cafe_normalize_value :
    normalize_name ("Joe\x27s Caf\xe9 & Grill") = "joe s caf" ∧
      tokenize_name ("Joe\x27s Caf\xe9 & Grill") = ["joe", "s", "caf"] :=
  ⟨by decide, by decide⟩

/-- C6 counterexample: the pair score is not symmetric, because difflib's
character-similarity ratio depends on argument order: on this pair it is
10/18 one way and 6/18 the other (the greedy longest-block decomposition
picks a different first block in each orientation). -/
theorem similarity_asymmetry_cx :
    pairScore ("abczghdef") ("defabcwgh") ≠ pairScore ("defabcwgh") ("abczghdef") ∧
      similarity ("abczghdef") ("defabcwgh") ≠ similarity ("defabcwgh") ("abczghdef") :=
  ⟨by decide, by decide⟩

/-- C6 (amended): the two token heuristics are symmetric in their
arguments; only the character-similarity component (and hence the overall
maximum) can differ under argument exchange. -/
theorem token_heuristics_symmetric (aT bT : List String) :
    prefix_match_score aT bT = prefix_match_score bT aT ∧
      token_overlap_score aT bT = token_overlap_score bT aT := by
  constructor
  · have e2 : (aT.take 3 = bT.take 3 ∧ 2 ≤ (aT.take 3).length) ↔
        (bT.take 3 = aT.take 3 ∧ 2 ≤ (bT.take 3).length) := by
      constructor
      · rintro ⟨h, hl⟩; exact ⟨h.symm, by rw [← h]; exact hl⟩
      · rintro ⟨h, hl⟩; exact ⟨h.symm, by rw [← h]; exact hl⟩
    have e3 : (2 ≤ aT.length ∧ 2 ≤ bT.length ∧ aT.take 2 = bT.take 2) ↔
        (2 ≤ bT.length ∧ 2 ≤ aT.length ∧ bT.take 2 = aT.take 2) := by
      constructor
      · rintro ⟨x, y, z⟩; exact ⟨y, x, z.symm⟩
      · rintro ⟨x, y, z⟩; exact ⟨y, x, z.symm⟩
    unfold prefix_match_score
    split_ifs <;> first | rfl | (exfalso; tauto)
  · unfold token_overlap_score
    by_cases h1 : aT.length < 2 ∨ bT.length < 2
    · rw [if_pos h1, if_pos h1.symm]
    · have h1' : ¬(bT.length < 2 ∨ aT.length < 2) := fun hcon => h1 hcon.symm
      have hcard : (bT.toFinset ∩ aT.toFinset).card = (aT.toFinset ∩ bT.toFinset).card := by
        rw [Finset.inter_comm]
      have hmin : min bT.length aT.length = min aT.length bT.length := Nat.min_comm _ _
      rw [if_neg h1, if_neg h1', hcard, hmin]

/-- C7: in the keyed-catalog path of `update_google_maps_from_html.py`, an
entry whose normalized key matches more than one catalog row is recorded
in the ambiguous list; every patched row comes from an entry with exactly
one keyed match and every queued insert from an entry with none, so a
multiply-keyed entry is never updated or inserted and no equally-keyed
row is ever picked. -/
theorem ambiguous_key_never_written (existing : List CatalogRow) (entries : List Entry)
    (e : Entry) (he : e ∈ entries) (hc : 1 < (existingByKey existing e.normalized).length) :
    (e.name, (existingByKey existing e.normalized).map (fun r => r.name)) ∈
        (classify existing entries).ambiguous
    ∧ (∀ u ∈ (classify existing entries).matched_updates, ∃ x ∈ entries, ∃ m : CatalogRow,
        existingByKey existing x.normalized = [m] ∧ u = (m.id, payloadOf x))
    ∧ (∀ nr ∈ (classify existing entries).new_rows, ∃ x ∈ entries,
        existingByKey existing x.normalized = [] ∧ nr.name = x.name) := by
  unfold classify
  refine ⟨syncFold_amb_mem existing entries _ e he hc, ?_, ?_⟩
  · intro u hu
    rcases syncFold_upd_from existing entries _ u hu with h | h
    · exact absurd h (List.not_mem_nil u)
    · exact h
  · intro nr hnr
    rcases syncFold_new_from existing entries _ nr hnr with h | h
    · exact absurd h (List.not_mem_nil nr)
    · exact h

/-- Witness for C7: two catalog rows share the normalized key
"alpha beta"; the parsed entry with that key lands in the ambiguous
list. -/
theorem ambiguous_key_never_written_witness :
    (("Alpha Beta" : String), ["Alpha Beta", "Alpha  Beta"]) ∈
      (classify [⟨"1", "Alpha Beta", "s1"⟩, ⟨"2", "Alpha  Beta", "s2"⟩]
        [⟨"Alpha Beta", "alpha beta", none, none, none, none, none, false⟩]).ambiguous := by
  have h := (ambiguous_key_never_written
    [⟨"1", "Alpha Beta", "s1"⟩, ⟨"2", "Alpha  Beta", "s2"⟩]
    [⟨"Alpha Beta", "alpha beta", none, none, none, none, none, false⟩]
    ⟨"Alpha Beta", "alpha beta", none, none, none, none, none, false⟩
    (List.mem_singleton.mpr rfl) (by decide)).1
  have hk : existingByKey [⟨"1", "Alpha Beta", "s1"⟩, ⟨"2", "Alpha  Beta", "s2"⟩]
      ("alpha beta") = [⟨"1", "Alpha Beta", "s1"⟩, ⟨"2", "Alpha  Beta", "s2"⟩] := by decide
  rw [hk] at h
  simpa using h

/-- C8 counterexample: a malformed override row (missing source-name key)
is fatal: the whole construction returns an error and the entry of the
preceding well-formed row is lost, instead of the row being skipped. -/
theorem malformed_override_fatal_cx :
    fetch_overrides [⟨some "A", some "B"⟩, ⟨none, some "x"⟩] = Except.error "KeyError" ∧
      fetch_overrides [⟨some "A", some "B"⟩, ⟨none, some "x"⟩] ≠ Except.ok [("a", "b")] := by
  refine ⟨rfl, ?_⟩
  intro h
  rw [show fetch_overrides [⟨some "A", some "B"⟩, ⟨none, some "x"⟩] =
    Except.error "KeyError" from rfl] at h
  exact Except.noConfusion h

/-- C8 (amended): `fetch_overrides` builds a map exactly when every row
carries both names; any row with a missing key or null value aborts the
construction with an error rather than being skipped. -/
theorem overrides_ok_iff_wellformed (rows : List OverrideRow) :
    (∃ m, fetch_overrides rows = Except.ok m) ↔
      ∀ row ∈ rows, row.dineout_name.isSome ∧ row.vancouverfoodies_name.isSome :=
  buildOverridesGo_ok_iff rows []

/-- C9: the score component of every `match_listing` result lies in the
closed interval [0, 1]: the override score is 1, the exact score 0.95,
and the fuzzy maximum combines a ratio in [0, 1] with the heuristic
constants 0.93 and 0.9 starting from 0. -/
theorem resolver_score_in_unit_interval (dn : String) (ls : List Listing)
    (ovr : List (String × String)) :
    0 ≤ (match_listing dn ls ovr).2.1 ∧ (match_listing dn ls ovr).2.1 ≤ 1 := by
  unfold match_listing
  cases h1 : (ovr.lookup (stripLower dn)).bind
      (fun tgt => ls.find? (fun l => stripLower l.name == tgt)) with
  | some l =>
    dsimp only
    exact ⟨by norm_num, by norm_num⟩
  | none =>
    dsimp only
    cases h2 : (if normalize_name dn = "" then none
        else ls.find? (fun l => normalize_name l.name == normalize_name dn)) with
    | some l =>
      dsimp only
      exact ⟨by decide, by decide⟩
    | none =>
      dsimp only
      exact fuzzyBest_bounds dn ls

/-- C10: when the target's lower/trimmed form is an override key but no
candidate's lower/trimmed name equals the override's target value,
`match_listing` behaves exactly as if no override existed: it proceeds to
the exact-normalized check and the fuzzy scoring over the same candidate
list. -/
theorem override_miss_falls_through (dn tgt : String) (ls : List Listing)
    (ovr : List (String × String))
    (hov : ovr.lookup (stripLower dn) = some tgt)
    (hmiss : ∀ l ∈ ls, stripLower l.name ≠ tgt) :
    match_listing dn ls ovr = match_listing dn ls [] := by
  unfold match_listing
  rw [hov, Option.some_bind]
  rw [List.find?_eq_none.mpr (fun x hx => by
    simp only [beq_iff_eq]
    exact hmiss x hx)]
  rfl

/-- Witness for C10: the override for "Foo" points at "bar", which no
candidate matches, so resolution falls through to scoring. -/
theorem override_miss_falls_through_witness :
    match_listing ("Foo") [⟨"Baz", "u"⟩] [("foo", "bar")] =
      match_listing ("Foo") [⟨"Baz", "u"⟩] [] :=
  override_miss_falls_through ("Foo") ("bar") [⟨"Baz", "u"⟩] [("foo", "bar")] (by decide)
    (by intro l hl; rw [List.mem_singleton.mp hl]; decide)

end Dineout

